import Mathlib

/-!
Verification development for the project-hours analyzer
(`project_hours_analyzer.py`).

Datetimes are modelled as natural numbers: the count of microseconds since a
fixed naive-local epoch that falls at a midnight.  Python `datetime` values in
the analyzer are naive local times, and all arithmetic the analyzer performs
on them (component extraction, `timedelta` addition, subtraction,
`.date()`/`.time()` splitting) is plain linear arithmetic on that microsecond
count, which the definitions below mirror.  Fractional quantities that Python
holds in floats (hour durations, gap lengths) are modelled as exact rationals;
where the source converts a float to a whole number of microseconds
(`timedelta`) or to an integer (`round`), Python rounds half-to-even, modelled
by `rhEvenZ` below.
-/

/-- Microseconds per minute. -/
def usPerMinute : ℕ := 60000000

/-- Microseconds per hour. -/
def usPerHour : ℕ := 3600000000

/-- Microseconds per quarter hour. -/
def usPerQuarter : ℕ := 900000000

/-- Microseconds per day. -/
def usPerDay : ℕ := 86400000000

/-- Minute component of a datetime (`dt.minute` in the source). -/
def dtMinute (t : ℕ) : ℕ := t / usPerMinute % 60

/-- Second component of a datetime (`dt.second` in the source). -/
def dtSecond (t : ℕ) : ℕ := t / 1000000 % 60

/-- Microsecond component of a datetime (`dt.microsecond` in the source). -/
def dtMicro (t : ℕ) : ℕ := t % 1000000

/-- Calendar date of a datetime (`dt.date()` in the source), as a day index. -/
def dateOf (t : ℕ) : ℕ := t / usPerDay

/-- Round-half-to-even of the quotient `a / b` of two naturals (`b ≠ 0`
expected).  This is the value Python's `round` returns on the exact rational
`a / b`. -/
def rheNat (a b : ℕ) : ℕ :=
  if 2 * (a % b) < b then a / b
  else if b < 2 * (a % b) then a / b + 1
  else if a / b % 2 = 0 then a / b else a / b + 1

/-- Round-half-to-even of a rational to an integer: the model of Python's
`round(x)` (and of the microsecond rounding CPython's `timedelta` applies to
float arguments).  Float representation artifacts are not modelled: the
analyzer only ever rounds values whose distance from a tie point is far above
double-precision error, and its tie points (`total_minutes/15` at `x.5`) are
exactly representable doubles, so on every value the source can produce this
exact-rational rounding agrees with the float computation. -/
def rhEvenZ (x : ℚ) : ℤ :=
  if x - ⌊x⌋ < 1 / 2 then ⌊x⌋
  else if (1 : ℚ) / 2 < x - ⌊x⌋ then ⌊x⌋ + 1
  else if ⌊x⌋ % 2 = 0 then ⌊x⌋ else ⌊x⌋ + 1

/-- Model of Python's `round(x, 2)` on an exact rational. -/
def round2 (x : ℚ) : ℚ := (rhEvenZ (100 * x) : ℚ) / 100

/-- Model of `timedelta(hours=h)` as a signed count of microseconds:
CPython converts the float to whole microseconds, rounding half-to-even. -/
def usOfHours (h : ℚ) : ℤ := rhEvenZ (h * (usPerHour : ℚ))

/-- Model of `dt + timedelta(hours=h)` on a datetime.  (The analyzer never
drives a datetime below the epoch; `Int.toNat` clamps that impossible case.) -/
def addHours (t : ℕ) (h : ℚ) : ℕ := ((t : ℤ) + usOfHours h).toNat

/-- Model of `(b - a).total_seconds() / 3600`: a signed duration in hours. -/
def gapHours (a b : ℕ) : ℚ := ((b : ℚ) - (a : ℚ)) / (usPerHour : ℚ)

/-- Embedding of `round_to_quarter_hour` (source lines 7-36): with
`total_minutes = minutes + seconds/60 + microseconds/60000000`, the source
computes `round(total_minutes / 15) * 15`; since
`total_minutes/15 = (t % usPerHour) / usPerQuarter` exactly, the rounded
quarter count is `rheNat (t % usPerHour) usPerQuarter`.  A result of 60
minutes (count 4) carries into the next hour; minute is replaced by the
rounded count and second/microsecond are zeroed. -/
def round_to_quarter_hour (t : ℕ) : ℕ :=
  if 4 ≤ rheNat (t % usPerHour) usPerQuarter then t / usPerHour * usPerHour + usPerHour
  else t / usPerHour * usPerHour + rheNat (t % usPerHour) usPerQuarter * usPerQuarter

/-- Embedding of `ensure_minimum_session_duration` (source lines 38-58).
`minUs` is the `min_hours` parameter expressed in microseconds; the source's
default `min_hours=0.25` is `usPerQuarter` microseconds, and every call in
`analyze_all_projects` omits the argument, so every call passes the default.
The duration test is on the signed difference, as `total_seconds` is. -/
def ensure_minimum_session_duration (s e minUs : ℕ) : ℕ × ℕ :=
  if (e : ℤ) - (s : ℤ) < (minUs : ℤ) then (s, round_to_quarter_hour (s + minUs)) else (s, e)

/-- A session as the analyzer stores it: `start_date`/`start_time` are the
split of `start`, `end_date`/`end_time` the split of `stop` (the two splits
are recombined losslessly by `datetime.combine` in the source, so one
microsecond count per endpoint carries the same information), and `hours` the
stored rounded duration. -/
structure Session where
  start : ℕ
  stop : ℕ
  hours : ℚ
  deriving Repr, DecidableEq

/-- The session-emission block the source repeats at lines 227-250, 270-291
and 303-323: round both endpoints to the quarter hour, apply
`ensure_minimum_session_duration` (with its default minimum — the source
passes no third argument), and store hours recomputed from the final
endpoints, rounded to 2 decimals. -/
def mkSession (s e : ℕ) : Session :=
  let p :=
    ensure_minimum_session_duration (round_to_quarter_hour s) (round_to_quarter_hour e) usPerQuarter
  { start := p.1, stop := p.2,
    hours := round2 (((p.2 : ℚ) - (p.1 : ℚ)) / (usPerHour : ℚ)) }

/-- The unrounded `actual_hours` of a session, recomputed from its rounded
endpoints (`(rounded_end - rounded_start).total_seconds() / 3600`). -/
def actualHours (s : Session) : ℚ := ((s.stop : ℚ) - (s.start : ℚ)) / (usPerHour : ℚ)

/-- The analyzer's configuration knobs that drive session building
(`time_multiplier`, `min_activity_hours`, `max_session_gap_hours`,
`session_end_buffer` in the source signature). -/
structure Config where
  timeMultiplier : ℚ
  minActivityHours : ℚ
  maxSessionGapHours : ℚ
  sessionEndBuffer : ℚ
  deriving Repr, DecidableEq

/-- The source's default configuration values. -/
def defaultConfig : Config :=
  { timeMultiplier := 1, minActivityHours := 1 / 4, maxSessionGapHours := 2,
    sessionEndBuffer := 1 / 4 }

/-- An interval as held inside `merge_overlapping_sessions`
(`start_dt`/`end_dt` in the source, from `datetime.combine`). -/
structure Iv where
  start : ℕ
  stop : ℕ
  deriving Repr, DecidableEq

/-- Conversion of a stored session to its interval (`datetime.combine` of
the date and time halves recovers exactly the endpoint). -/
def toIv (s : Session) : Iv := ⟨s.start, s.stop⟩

/-- The sort key used by the merger: `key=lambda x: x.start_dt`. -/
def ivLE (a b : Iv) : Prop := a.start ≤ b.start

instance : DecidableRel ivLE := fun _ _ => Nat.decLe _ _

instance : IsTotal Iv ivLE := ⟨fun _ _ => Nat.le_total _ _⟩

instance : IsTrans Iv ivLE := ⟨fun _ _ _ => Nat.le_trans⟩

/-- The merger's scan (source lines 366-380): `current` absorbs each later
interval whose start is at most `current.end + 15 minutes`, extending its end
to the larger of the two; otherwise `current` is finalized and the later
interval becomes the running one.  The running interval is appended after the
scan. -/
def mergeLoop (current : Iv) : List Iv → List Iv
  | [] => [current]
  | n :: rest =>
    if n.start ≤ current.stop + usPerQuarter then
      mergeLoop ⟨current.start, max current.stop n.stop⟩ rest
    else
      current :: mergeLoop n rest

/-- Conversion of a merged interval back to session form (source lines
383-394), recomputing `hours` from the merged endpoints with `round(·, 2)`. -/
def finalizeIv (iv : Iv) : Session :=
  ⟨iv.start, iv.stop, round2 (((iv.stop : ℚ) - (iv.start : ℚ)) / (usPerHour : ℚ))⟩

/-- Embedding of `merge_overlapping_sessions` (source lines 338-396): an empty
input is returned as is; otherwise the intervals are sorted by start (Python's
sort is stable, and `List.insertionSort` with the same key is stable too, so
the two produce the same list), scanned by `mergeLoop` starting from the first
interval, and converted back with recomputed hours. -/
def merge_overlapping_sessions (sessions : List Session) : List Session :=
  match List.insertionSort ivLE (sessions.map toIv) with
  | [] => []
  | c :: rest => (mergeLoop c rest).map finalizeIv

/-- The in-session walk over a day's second and later timestamps (source
lines 258-296).  `prev` is `timestamps[i-1]`, `curStart` the running
`current_session_start`, `acc` the running `daily_session_time`.  A gap at
most `max_session_gap_hours` accumulates; a larger gap closes the current
session with nominal duration `(acc + min_activity_hours) * time_multiplier`
and opens a new one at the current timestamp with `acc` reset to
`min_activity_hours`.  After the last timestamp the final session closes with
nominal duration `(acc + session_end_buffer) * time_multiplier` (source lines
298-323). -/
def buildDayLoop (cfg : Config) (prev curStart : ℕ) (acc : ℚ) : List ℕ → List Session
  | [] =>
    [mkSession curStart (addHours curStart ((acc + cfg.sessionEndBuffer) * cfg.timeMultiplier))]
  | t :: rest =>
    if gapHours prev t ≤ cfg.maxSessionGapHours then
      buildDayLoop cfg t curStart (acc + gapHours prev t) rest
    else
      mkSession curStart (addHours curStart ((acc + cfg.minActivityHours) * cfg.timeMultiplier)) ::
        buildDayLoop cfg t t cfg.minActivityHours rest

/-- The sessions one calendar day's sorted timestamps produce (source lines
225-323): one session for a single activity, the `buildDayLoop` walk for
several. -/
def build_day_sessions (cfg : Config) : List ℕ → List Session
  | [] => []
  | [t] => [mkSession t (addHours t (cfg.minActivityHours * cfg.timeMultiplier))]
  | t :: u :: rest => buildDayLoop cfg t t 0 (u :: rest)

/-- Partition of a datetime-sorted timestamp list into its calendar-day
groups, in order (the `groupby('date')` of source line 222: the frame is
already sorted by datetime, and the day index is monotone in the datetime, so
the groups are the maximal runs of equal date). -/
def groupByDate : List ℕ → List (ℕ × List ℕ)
  | [] => []
  | t :: rest =>
    match groupByDate rest with
    | [] => [(dateOf t, [t])]
    | (d, g) :: gs =>
      if dateOf t = d then (d, t :: g) :: gs else (dateOf t, [t]) :: (d, g) :: gs

/-- The multi-activity daily total of source lines 326-327: the sum of stored
`hours` over every session built so far whose stored start date equals `d`. -/
def sumDayHours (sessions : List Session) (d : ℕ) : ℚ :=
  ((sessions.filter fun s => dateOf s.start == d).map Session.hours).sum

/-- The per-date loop of `analyze_all_projects` (source lines 222-327),
threading the growing session list.  For a single-activity day the daily
entry is that session's unrounded `actual_hours` (line 251); for a
multi-activity day it is `sumDayHours` over the sessions accumulated so far,
including this day's (lines 326-327).  Each date appears once, so the
`daily_hours[date] = ...` assignments form an association list in date
order. -/
def analyzeDaysGo (cfg : Config) : List (ℕ × List ℕ) → List Session → List (ℕ × ℚ) × List Session
  | [], sessions => ([], sessions)
  | (d, [t]) :: rest, sessions =>
    let s := mkSession t (addHours t (cfg.minActivityHours * cfg.timeMultiplier))
    let out := analyzeDaysGo cfg rest (sessions ++ [s])
    ((d, actualHours s) :: out.1, out.2)
  | (d, g) :: rest, sessions =>
    let sessions2 := sessions ++ build_day_sessions cfg g
    let out := analyzeDaysGo cfg rest sessions2
    ((d, sumDayHours sessions2 d) :: out.1, out.2)

/-- The whole per-project pipeline of `analyze_all_projects` (source lines
214-334) on one project's local-time timestamps: sort by datetime, group by
date, build sessions and record daily totals day by day, store the daily
totals (line 329, before merging), then merge the session list (line 332).
Returns `(daily_hours, merged_sessions)`. -/
def analyze_project_sessions (cfg : Config) (ts : List ℕ) : List (ℕ × ℚ) × List Session :=
  let r := analyzeDaysGo cfg (groupByDate (List.insertionSort (· ≤ ·) ts)) []
  (r.1, merge_overlapping_sessions r.2)

/-! ## Project classifier (`extract_project_names`, source lines 60-124)

Strings are modelled as `List Char`.  Python's `str.split(sep)` pieces are
recovered from `findSplit`, which locates the first occurrence of `sep`. -/

/-- Strings as character lists. -/
abbrev Str := List Char

/-- The sentinel project name. -/
def unknownProject : Str := "Unknown_Project".toList

/-- First occurrence of `sep` in a string: `some (before, after)` splits
around the leftmost occurrence; `none` when `sep` does not occur. -/
def findSplit (sep : Str) : Str → Option (Str × Str)
  | [] => if List.isPrefixOf sep [] then some ([], []) else none
  | c :: rest =>
    if List.isPrefixOf sep (c :: rest) then some ([], (c :: rest).drop sep.length)
    else (findSplit sep rest).map fun p => (c :: p.1, p.2)

/-- The part of `s` before the first occurrence of `sep`, or all of `s` when
`sep` does not occur: `s.split(sep)[0]` in Python. -/
def upToFirst (sep s : Str) : Str :=
  match findSplit sep s with
  | none => s
  | some p => p.1

/-- The part of `s` after the first occurrence of `sep` (empty when `sep`
does not occur). -/
def afterFirst (sep s : Str) : Str :=
  match findSplit sep s with
  | none => []
  | some p => p.2

/-- Python's `s.split(sep)[1]`: the piece between the first occurrence of
`sep` and the next one (or the end).  Only used when `sep` occurs in `s`. -/
def splitPiece1 (sep s : Str) : Str := upToFirst sep (afterFirst sep s)

/-- Python's default `str.strip` whitespace set (ASCII part). -/
def isPySpace (c : Char) : Bool :=
  c == ' ' || c == '\t' || c == '\n' || c == '\r' || c == '\x0b' || c == '\x0c'

/-- Python's `str.strip()`. -/
def pyStrip (s : Str) : Str :=
  ((s.dropWhile isPySpace).reverse.dropWhile isPySpace).reverse

/-- Python's `str.split(c)` for a one-character separator, keeping empty
pieces. -/
def splitChar (c : Char) : Str → List Str
  | [] => [[]]
  | a :: rest =>
    match splitChar c rest with
    | [] => [[]]
    | h :: t => if a = c then [] :: h :: t else (a :: h) :: t

/-- Scheme characters accepted by CPython's `urlsplit` (letters, digits,
`+`, `-`, `.`). -/
def isSchemeChar (c : Char) : Bool := c.isAlphanum || c == '+' || c == '-' || c == '.'

/-- CPython `urlsplit` scheme handling: when the text before the first `:`
is nonempty, starts with an ASCII letter and consists of scheme characters,
it is the (lowercased) scheme and parsing continues after the colon. -/
def schemeSplit (url : Str) : Str × Str :=
  match findSplit [':'] url with
  | some p =>
    if !p.1.isEmpty && (p.1.headD '0').isAlpha && p.1.all isSchemeChar then
      (p.1.map Char.toLower, p.2)
    else ([], url)
  | none => ([], url)

/-- CPython `_splitnetloc`: the network location runs to the first `/`, `?`
or `#`; the returned second component starts at that delimiter. -/
def netlocSplit : Str → Str × Str
  | [] => ([], [])
  | c :: rest =>
    if c == '/' || c == '?' || c == '#' then ([], c :: rest)
    else
      let p := netlocSplit rest
      (c :: p.1, p.2)

/-- The schemes for which CPython's `urlparse` splits `;parameters` off the
last path segment (`uses_params`). -/
def usesParamsList : List Str :=
  ["", "ftp", "hdl", "prospero", "http", "imap", "https", "shttp", "rtsp", "rtspu", "sip",
    "sips", "mms", "sftp", "tel"].map String.toList

/-- CPython `_splitparams`: when the last path segment contains `;`, the path
stops at that `;`. -/
def splitParams (p : Str) : Str :=
  if '/' ∈ p then
    if ';' ∈ (p.reverse.takeWhile (· != '/')).reverse then
      (p.reverse.dropWhile (· != '/')).reverse ++
        ((p.reverse.takeWhile (· != '/')).reverse.takeWhile (· != ';'))
    else p
  else if ';' ∈ p then p.takeWhile (· != ';') else p

/-- Model of CPython's `urlparse(url).path`: strip leading C0-control/space
characters and embedded tab/CR/LF, split off the scheme, the network location
(validating its IPv6 brackets — mismatched brackets raise `ValueError`,
modelled as `none`), the fragment and the query, then split parameters off
the last segment for the schemes that use them. -/
def urlparsePath (url : Str) : Option Str :=
  let u := (url.dropWhile fun c => c.val ≤ 32).filter
    fun c => !(c == '\t' || c == '\r' || c == '\n')
  let sp := schemeSplit u
  let np : Str × Str :=
    if List.isPrefixOf ['/', '/'] sp.2 then netlocSplit (sp.2.drop 2) else ([], sp.2)
  if ('[' ∈ np.1 ∧ ']' ∉ np.1) ∨ (']' ∈ np.1 ∧ '[' ∉ np.1) then none
  else
    let path := upToFirst ['?'] (upToFirst ['#'] np.2)
    some (if sp.1 ∈ usesParamsList ∧ ';' ∈ path then splitParams path else path)

/-- Embedding of one row of `extract_project_names` (source lines 72-122).
`dataLink` is `str(row.get('dataLink', ''))` (`"nan"` for a missing value)
and `blurb` is `str(row.get('blurb', ''))`.  A present, parseable URL
contributes its 4th non-empty path segment when there are at least 4, its 3rd
when there are at least 3, and the sentinel otherwise; a `ValueError` from
`urlparse` falls back to a raw split on `/` taking the 7th piece; without a
URL the text between `'In '` and `' ['` is used when the text contains both
`'In '` and `'['` and the trimmed candidate is nonempty, shorter than 100
characters and newline-free. -/
def extract_project_name (dataLink blurb : Str) : Str :=
  if dataLink ≠ [] ∧ dataLink ≠ "nan".toList then
    match urlparsePath dataLink with
    | some path =>
      let segs := (splitChar '/' path).filter fun seg => !seg.isEmpty
      if 4 ≤ segs.length then segs.getD 3 []
      else if 3 ≤ segs.length then segs.getD 2 []
      else unknownProject
    | none =>
      let parts := splitChar '/' dataLink
      if 6 < parts.length then parts.getD 6 [] else unknownProject
  else
    if (findSplit "In ".toList blurb).isSome ∧ '[' ∈ blurb then
      let name := pyStrip (upToFirst " [".toList (splitPiece1 "In ".toList blurb))
      if name ≠ [] ∧ name.length < 100 ∧ '\n' ∉ name then name else unknownProject
    else unknownProject

/-! ## Aggregation and the full pipeline (`analyze_all_projects`) -/

/-- First-occurrence deduplication: the key order of a Python
`Counter`/`dict` built by insertion. -/
def pyDedup {α : Type} [DecidableEq α] : List α → List α
  | [] => []
  | a :: rest => a :: pyDedup (rest.filter fun b => b ≠ a)
termination_by l => l.length
decreasing_by
  simp only [List.length_cons]
  exact Nat.lt_succ_of_le (List.length_filter_le _ _)

/-- The significant-project filter of source lines 207-208: projects (in
first-appearance order) whose event count is at least `minActivities` and
which are not the sentinel. -/
def significant_projects (projects : List Str) (minActivities : ℕ) : List Str :=
  (pyDedup projects).filter fun p =>
    decide (minActivities ≤ projects.count p) && p != unknownProject

/-- One input row after `pd.to_numeric(df['timestamp'], errors='coerce')`:
`timestamp` is `none` when the raw value was not numeric (`NaN` after
coercion), and the string fields are as `extract_project_name` expects
them. -/
structure RawRow where
  timestamp : Option ℤ
  dataLink : Str
  blurb : Str
  deriving Repr, DecidableEq

/-- The tuple `analyze_all_projects` returns, together with whether the
timestamp-conversion `except` branch ran (`failed`; the source prints a
diagnostic there and returns empty dictionaries). -/
structure AnalyzeResult where
  failed : Bool
  projectHours : List (Str × List (ℕ × ℚ))
  projectSessions : List (Str × List Session)
  projectCounts : List (Str × ℕ)
  deriving Repr, DecidableEq

/-- Unit auto-detection (source line 174): milliseconds when the maximum
remaining timestamp exceeds 10^12.  An empty column has `max() = NaN` in
pandas and `NaN > 1e12` is false, so the empty case detects seconds. -/
def unitIsMs : List ℤ → Bool
  | [] => false
  | t :: rest => decide ((10 : ℤ) ^ 12 < rest.foldl max t)

/-- Model of `pd.to_datetime(·, unit=...)` raising (the only exception the
source's `except` at line 195 can see from the conversion): a value whose
nanosecond count overflows the signed 64-bit range is out of bounds.  An
empty column raises nothing. -/
def toDatetimeRaises (unitMs : Bool) (ts : List ℤ) : Bool :=
  ts.any fun t =>
    if unitMs then decide (9223372036854 < t.natAbs) else decide (9223372036 < t.natAbs)

/-- Raw epoch value to UTC microseconds under the detected unit. -/
def epochToUs (unitMs : Bool) (t : ℤ) : ℤ := if unitMs then 1000 * t else 1000000 * t

/-- Embedding of `analyze_all_projects` (source lines 126-336) after the file
read: coerce timestamps and drop the rows that failed (`dropna`), detect the
epoch unit, convert to zone-local naive datetimes (`tz` is the composite
UTC-localize / zone-convert / naive-strip map on microsecond counts), classify
every remaining row, count and filter projects, and run the per-project
session pipeline on each significant project's rows in classifier order. -/
def analyze_all_projects (cfg : Config) (minActivities : ℕ) (tz : ℤ → ℕ)
    (rows : List RawRow) : AnalyzeResult :=
  let rows2 := rows.filter fun r => r.timestamp.isSome
  let rawTs := rows2.filterMap fun r => r.timestamp
  let unitMs := unitIsMs rawTs
  if toDatetimeRaises unitMs rawTs then
    { failed := true, projectHours := [], projectSessions := [], projectCounts := [] }
  else
    let projects := rows2.map fun r => extract_project_name r.dataLink r.blurb
    let tsFor : Str → List ℕ := fun p =>
      (rows2.filter fun r => extract_project_name r.dataLink r.blurb == p).filterMap
        fun r => r.timestamp.map fun t => tz (epochToUs unitMs t)
    { failed := false,
      projectHours := (significant_projects projects minActivities).map fun p =>
        (p, (analyze_project_sessions cfg (tsFor p)).1),
      projectSessions := (significant_projects projects minActivities).map fun p =>
        (p, (analyze_project_sessions cfg (tsFor p)).2),
      projectCounts := (pyDedup projects).map fun p => (p, projects.count p) }

/-! ## Specification-side definitions

These definitions follow the wording of the specification's claims (not the
source); the theorems below compare them with the embedded source. -/

/-- Specification wording of quarter-hour rounding: `total = minutes +
seconds/60 + microseconds/60000000` as an exact rational, `total/15` rounded
to the nearest integer with half-to-even tie-breaking, times 15; a result of
60 zeroes the minutes and advances the hour; seconds and sub-seconds are
zeroed. -/
def round_to_quarter_hour_spec (t : ℕ) : ℕ :=
  if rhEvenZ (((dtMinute t : ℚ) + (dtSecond t : ℚ) / 60 + (dtMicro t : ℚ) / 60000000) / 15) * 15
      = 60 then
    (t / usPerHour + 1) * usPerHour
  else
    t / usPerHour * usPerHour +
      (rhEvenZ (((dtMinute t : ℚ) + (dtSecond t : ℚ) / 60 + (dtMicro t : ℚ) / 60000000) / 15) * 15 *
        (usPerMinute : ℤ)).toNat

/-- Occurrence of `sep` as a contiguous substring, by direct scan (used by
the specification-side classifier, in place of the source-side
`findSplit`-based test). -/
def containsSeq (sep : Str) : Str → Bool
  | [] => List.isPrefixOf sep []
  | c :: rest => List.isPrefixOf sep (c :: rest) || containsSeq sep rest

/-- The classifier as claim C6 words it.  URL branch as the claim says
(at least 4 non-empty segments → index 3, exactly 3 → index 2, fewer →
sentinel; the claim does not speak about unparseable URLs, for which the
source's raw-split fallback is kept).  Text branch as the claim says: the
text must contain `'In '` followed *later* by `' ['`, and the candidate is
the substring between them, trimmed, accepted only if nonempty, shorter than
100 characters and newline-free. -/
def extract_project_name_claim (dataLink blurb : Str) : Str :=
  if dataLink ≠ [] ∧ dataLink ≠ "nan".toList then
    match urlparsePath dataLink with
    | some path =>
      let segs := (splitChar '/' path).filter fun seg => !seg.isEmpty
      if 4 ≤ segs.length then segs.getD 3 []
      else if segs.length = 3 then segs.getD 2 []
      else unknownProject
    | none =>
      let parts := splitChar '/' dataLink
      if 6 < parts.length then parts.getD 6 [] else unknownProject
  else
    match findSplit "In ".toList blurb with
    | none => unknownProject
    | some p =>
      match findSplit " [".toList p.2 with
      | none => unknownProject
      | some q =>
        let name := pyStrip q.1
        if name ≠ [] ∧ name.length < 100 ∧ '\n' ∉ name then name else unknownProject

/-- The classifier as amended: the URL branch of the claim is kept; the text
branch requires only that the text contain `'In '` somewhere and `'['`
somewhere (not an `' ['` after the `'In '`), and the candidate is the text
after the first `'In '`, cut at the next `'In '` if any, cut at the first
`' ['` within that piece, trimmed, accepted under the same three
conditions. -/
def extract_project_name_amended (dataLink blurb : Str) : Str :=
  if dataLink ≠ [] ∧ dataLink ≠ "nan".toList then
    match urlparsePath dataLink with
    | some path =>
      let segs := (splitChar '/' path).filter fun seg => !seg.isEmpty
      if 4 ≤ segs.length then segs.getD 3 []
      else if segs.length = 3 then segs.getD 2 []
      else unknownProject
    | none =>
      let parts := splitChar '/' dataLink
      if 6 < parts.length then parts.getD 6 [] else unknownProject
  else
    if containsSeq "In ".toList blurb && containsSeq ['['] blurb then
      let name := pyStrip (upToFirst " [".toList (upToFirst "In ".toList (afterFirst "In ".toList blurb)))
      if name ≠ [] ∧ name.length < 100 ∧ '\n' ∉ name then name else unknownProject
    else unknownProject

/-! ## Lemmas about rounding -/

theorem round_to_quarter_hour_aligned (t : ℕ) : round_to_quarter_hour t % usPerQuarter = 0 := by
  unfold round_to_quarter_hour
  split <;> · unfold usPerHour usPerQuarter at *; omega

theorem round_to_quarter_hour_fixed {t : ℕ} (h : t % usPerQuarter = 0) :
    round_to_quarter_hour t = t := by
  unfold round_to_quarter_hour rheNat
  unfold usPerHour usPerQuarter at *
  split_ifs <;> omega

/-- The natural-number half-to-even rounding of `a / b` agrees with the
rational one. -/
theorem rheNat_eq_rhEvenZ (a b : ℕ) (hb : 0 < b) :
    (rheNat a b : ℤ) = rhEvenZ ((a : ℚ) / (b : ℚ)) := by
  have hbq : (0 : ℚ) < (b : ℚ) := by exact_mod_cast hb
  have hfl : ⌊((a : ℚ) / (b : ℚ))⌋ = ((a / b : ℕ) : ℤ) := Rat.floor_natCast_div_natCast a b
  have h0 : (b : ℚ) * ((a / b : ℕ) : ℚ) + ((a % b : ℕ) : ℚ) = (a : ℚ) := by
    exact_mod_cast congrArg (fun n : ℕ => (n : ℚ)) (Nat.div_add_mod a b)
  have hfr : (a : ℚ) / (b : ℚ) - ((a / b : ℕ) : ℚ) = ((a % b : ℕ) : ℚ) / (b : ℚ) := by
    field_simp
    linear_combination -h0
  have hlt : (((a % b : ℕ) : ℚ) / (b : ℚ) < 1 / 2) ↔ 2 * (a % b) < b := by
    rw [div_lt_div_iff₀ hbq (by norm_num), one_mul]
    constructor
    · intro h1
      have h2 : ((a % b : ℕ) : ℚ) * 2 = ((a % b * 2 : ℕ) : ℚ) := by push_cast; ring
      rw [h2] at h1
      have := Nat.cast_lt (α := ℚ) |>.mp h1
      omega
    · intro h1
      have h2 : ((a % b * 2 : ℕ) : ℚ) < (b : ℚ) := by exact_mod_cast (by omega : a % b * 2 < b)
      push_cast at h2
      linarith
  have hgt : ((1 : ℚ) / 2 < ((a % b : ℕ) : ℚ) / (b : ℚ)) ↔ b < 2 * (a % b) := by
    rw [div_lt_div_iff₀ (by norm_num) hbq, one_mul]
    constructor
    · intro h1
      have h2 : ((a % b : ℕ) : ℚ) * 2 = ((a % b * 2 : ℕ) : ℚ) := by push_cast; ring
      rw [h2] at h1
      have := Nat.cast_lt (α := ℚ) |>.mp h1
      omega
    · intro h1
      have h2 : (b : ℚ) < ((a % b * 2 : ℕ) : ℚ) := by exact_mod_cast (by omega : b < a % b * 2)
      push_cast at h2
      linarith
  have hpar : ((((a / b : ℕ) : ℤ)) % 2 = 0) ↔ ((a / b) % 2 = 0) := by omega
  have hcast : ((((a / b : ℕ) : ℤ)) : ℚ) = ((a / b : ℕ) : ℚ) := by norm_cast
  unfold rheNat rhEvenZ
  rw [hfl]
  rw [hcast, hfr]
  simp only [hlt, hgt, hpar]
  split_ifs <;> push_cast <;> ring

theorem quarterCount_le (t : ℕ) : rheNat (t % usPerHour) usPerQuarter ≤ 4 := by
  unfold rheNat usPerHour usPerQuarter
  split_ifs <;> omega

theorem hourOffset_decompose (t : ℕ) :
    60000000 * dtMinute t + 1000000 * dtSecond t + dtMicro t = t % usPerHour := by
  unfold dtMinute dtSecond dtMicro usPerMinute usPerHour
  omega

theorem total_div_15 (t : ℕ) :
    ((dtMinute t : ℚ) + (dtSecond t : ℚ) / 60 + (dtMicro t : ℚ) / 60000000) / 15 =
      ((t % usPerHour : ℕ) : ℚ) / ((usPerQuarter : ℕ) : ℚ) := by
  have h : ((60000000 * dtMinute t + 1000000 * dtSecond t + dtMicro t : ℕ) : ℚ) =
      ((t % usPerHour : ℕ) : ℚ) := by exact_mod_cast congrArg (fun n : ℕ => (n : ℚ)) (hourOffset_decompose t)
  push_cast at h
  have hq : ((usPerQuarter : ℕ) : ℚ) = 900000000 := by norm_num [usPerQuarter]
  rw [hq]
  field_simp
  linear_combination (54000000000 : ℚ) * h

/-- Claim C3: quarter-hour rounding follows the described computation
(exact-rational `total`, half-to-even rounding of `total/15`, times 15,
with the 60-minute carry), and its result has zero seconds and microseconds
and a minute in {0, 15, 30, 45}. -/
theorem claim_C3_round_to_quarter_hour (t : ℕ) :
    round_to_quarter_hour t = round_to_quarter_hour_spec t ∧
      dtSecond (round_to_quarter_hour t) = 0 ∧
      dtMicro (round_to_quarter_hour t) = 0 ∧
      dtMinute (round_to_quarter_hour t) ∈ [0, 15, 30, 45] := by
  have hk := quarterCount_le t
  have hbridge : ((rheNat (t % usPerHour) usPerQuarter : ℕ) : ℤ) =
      rhEvenZ (((t % usPerHour : ℕ) : ℚ) / ((usPerQuarter : ℕ) : ℚ)) :=
    rheNat_eq_rhEvenZ _ _ (by norm_num [usPerQuarter])
  have hb2 : rhEvenZ (((dtMinute t : ℚ) + (dtSecond t : ℚ) / 60 + (dtMicro t : ℚ) / 60000000) / 15)
      = ((rheNat (t % usPerHour) usPerQuarter : ℕ) : ℤ) := by
    rw [total_div_15 t]
    exact hbridge.symm
  have heq : round_to_quarter_hour t = round_to_quarter_hour_spec t := by
    unfold round_to_quarter_hour round_to_quarter_hour_spec
    rw [hb2]
    by_cases h4 : 4 ≤ rheNat (t % usPerHour) usPerQuarter
    · have hk4 : rheNat (t % usPerHour) usPerQuarter = 4 := by omega
      rw [if_pos h4, if_pos (by rw [hk4]; norm_num)]
      unfold usPerHour
      ring
    · rw [if_neg h4, if_neg (by intro hcon; omega)]
      have h2 : (((rheNat (t % usPerHour) usPerQuarter : ℕ) : ℤ) * 15 * ((usPerMinute : ℕ) : ℤ)).toNat
          = rheNat (t % usPerHour) usPerQuarter * usPerQuarter := by
        unfold usPerMinute usPerQuarter
        omega
      rw [h2]
  have ha : round_to_quarter_hour t % 900000000 = 0 := by
    have h0 := round_to_quarter_hour_aligned t
    unfold usPerQuarter at h0
    exact h0
  refine ⟨heq, ?_, ?_, ?_⟩
  · unfold dtSecond
    omega
  · unfold dtMicro
    omega
  · unfold dtMinute usPerMinute
    have h4 : round_to_quarter_hour t / 60000000 % 60 = 0 ∨
        round_to_quarter_hour t / 60000000 % 60 = 15 ∨
        round_to_quarter_hour t / 60000000 % 60 = 30 ∨
        round_to_quarter_hour t / 60000000 % 60 = 45 := by omega
    simpa using h4

/-! ## Evaluation lemmas (used to run the embedded code on concrete inputs) -/

theorem rhEvenZ_int (n : ℤ) : rhEvenZ ((n : ℤ) : ℚ) = n := by
  unfold rhEvenZ
  rw [Int.floor_intCast]
  norm_num

theorem addHours_eval (t n : ℕ) (h : ℚ) (e : h * ((usPerHour : ℕ) : ℚ) = ((n : ℕ) : ℚ)) :
    addHours t h = t + n := by
  unfold addHours usOfHours
  rw [e, show ((n : ℕ) : ℚ) = (((n : ℕ) : ℤ) : ℚ) from by push_cast; ring, rhEvenZ_int]
  omega

theorem mkSession_eval (s e rs re fs fe : ℕ) (hr : ℚ)
    (h1 : round_to_quarter_hour s = rs) (h2 : round_to_quarter_hour e = re)
    (h3 : ensure_minimum_session_duration rs re usPerQuarter = (fs, fe))
    (h4 : round2 ((((fe : ℕ) : ℚ) - ((fs : ℕ) : ℚ)) / ((usPerHour : ℕ) : ℚ)) = hr) :
    mkSession s e = ⟨fs, fe, hr⟩ := by
  unfold mkSession
  rw [h1, h2, h3]
  show Session.mk fs fe
      (round2 ((((fe : ℕ) : ℚ) - ((fs : ℕ) : ℚ)) / ((usPerHour : ℕ) : ℚ))) = Session.mk fs fe hr
  rw [h4]

theorem round2_eval (x : ℚ) (n : ℤ) (h : 100 * x = ((n : ℤ) : ℚ)) :
    round2 x = ((n : ℤ) : ℚ) / 100 := by
  unfold round2
  rw [h, rhEvenZ_int]

/-! ## The minimum-duration floor (claim C2) -/

theorem ensure_min_floor (s e : ℕ) (hs : s % usPerQuarter = 0) :
    (ensure_minimum_session_duration s e usPerQuarter).1 = s ∧
      s + usPerQuarter ≤ (ensure_minimum_session_duration s e usPerQuarter).2 := by
  unfold ensure_minimum_session_duration
  split_ifs with h
  · refine ⟨rfl, ?_⟩
    have hq : (s + usPerQuarter) % usPerQuarter = 0 := by
      simp only [usPerQuarter] at hs ⊢
      omega
    rw [round_to_quarter_hour_fixed hq]
  · refine ⟨rfl, ?_⟩
    omega

theorem mkSession_floor (s e : ℕ) :
    (mkSession s e).start % usPerQuarter = 0 ∧
      (mkSession s e).start + usPerQuarter ≤ (mkSession s e).stop := by
  have h := ensure_min_floor (round_to_quarter_hour s) (round_to_quarter_hour e)
    (round_to_quarter_hour_aligned s)
  have h1 : (mkSession s e).start =
      (ensure_minimum_session_duration (round_to_quarter_hour s) (round_to_quarter_hour e)
        usPerQuarter).1 := rfl
  have h2 : (mkSession s e).stop =
      (ensure_minimum_session_duration (round_to_quarter_hour s) (round_to_quarter_hour e)
        usPerQuarter).2 := rfl
  rw [h1, h2, h.1]
  exact ⟨round_to_quarter_hour_aligned s, h.2⟩

theorem buildDayLoop_shape (cfg : Config) :
    ∀ (l : List ℕ) (prev curStart : ℕ) (acc : ℚ),
      ∀ x ∈ buildDayLoop cfg prev curStart acc l, ∃ a b, x = mkSession a b := by
  intro l
  induction l with
  | nil =>
    intro prev curStart acc x hx
    exact ⟨_, _, by simpa [buildDayLoop] using hx⟩
  | cons t rest ih =>
    intro prev curStart acc x hx
    unfold buildDayLoop at hx
    split at hx
    · exact ih t curStart _ x hx
    · rcases List.mem_cons.mp hx with h | h
      · exact ⟨_, _, h⟩
      · exact ih t t _ x h

theorem build_day_sessions_shape (cfg : Config) (ts : List ℕ) :
    ∀ x ∈ build_day_sessions cfg ts, ∃ a b, x = mkSession a b := by
  match ts with
  | [] => intro x hx; simp [build_day_sessions] at hx
  | [t] =>
    intro x hx
    exact ⟨_, _, by simpa [build_day_sessions] using hx⟩
  | t :: u :: rest =>
    intro x hx
    exact buildDayLoop_shape cfg (u :: rest) t t 0 x hx

/-- Claim C2 (amended): the duration floor the Session Builder enforces is the
fixed default 0.25 h of `ensure_minimum_session_duration` — the source never
passes `min_activity_hours` to it — so every emitted session starts on a
quarter-hour mark and lasts at least 0.25 h, whatever the configuration
says. -/
theorem claim_C2_amended_floor (cfg : Config) (ts : List ℕ) :
    ∀ s ∈ build_day_sessions cfg ts,
      s.start % usPerQuarter = 0 ∧ s.start + usPerQuarter ≤ s.stop := by
  intro s hs
  obtain ⟨a, b, rfl⟩ := build_day_sessions_shape cfg ts s hs
  exact mkSession_floor a b

/-- A configuration with `min_activity_hours = 1.0` and
`time_multiplier = 0.25`, used to exhibit that the builder's floor ignores
`min_activity_hours`. -/
def c2cfg : Config :=
  { timeMultiplier := 1 / 4, minActivityHours := 1, maxSessionGapHours := 2,
    sessionEndBuffer := 1 / 4 }

theorem c2_session_eval : build_day_sessions c2cfg [32400000000] =
    [⟨32400000000, 33300000000, 1 / 4⟩] := by
  show [mkSession 32400000000 (addHours 32400000000 (c2cfg.minActivityHours * c2cfg.timeMultiplier))] = _
  rw [addHours_eval 32400000000 900000000 _ (by norm_num [c2cfg, usPerHour])]
  rw [mkSession_eval 32400000000 33300000000 32400000000 33300000000 32400000000 33300000000
    (1 / 4) (by decide) (by decide) (by decide) (by norm_num [round2, rhEvenZ, usPerHour])]

/-- Claim C2 as stated is false: with `min_activity_hours = 1.0` and
`time_multiplier = 0.25`, the single event at 09:00 produces the session
09:00–09:15 of rounded duration 0.25 h, which is below `min_activity_hours`;
the claim demands the end be extended to `rounded_start + min_activity_hours`
re-rounded, i.e. 10:00, but the code leaves 09:15 because it applies
`ensure_minimum_session_duration`'s fixed default instead of the configured
value. -/
theorem claim_C2_counterexample :
    build_day_sessions c2cfg [32400000000] = [⟨32400000000, 33300000000, 1 / 4⟩] ∧
      gapHours 32400000000 33300000000 < c2cfg.minActivityHours ∧
      round_to_quarter_hour
          (addHours (round_to_quarter_hour 32400000000) c2cfg.minActivityHours) = 36000000000 ∧
      (33300000000 : ℕ) ≠ 36000000000 := by
  refine ⟨c2_session_eval, ?_, ?_, by decide⟩
  · norm_num [gapHours, usPerHour, c2cfg]
  · rw [show round_to_quarter_hour 32400000000 = 32400000000 from by decide,
      addHours_eval 32400000000 3600000000 _ (by norm_num [c2cfg, usPerHour])]
    decide

theorem claim_C2_amended_floor_witness :
    ((⟨27900000000, 28800000000, 1 / 4⟩ : Session) ∈
        build_day_sessions defaultConfig [27840000000]) ∧
      (27900000000 : ℕ) % usPerQuarter = 0 ∧
      (27900000000 : ℕ) + usPerQuarter ≤ (28800000000 : ℕ) := by
  have heval : build_day_sessions defaultConfig [27840000000] =
      [⟨27900000000, 28800000000, 1 / 4⟩] := by
    show [mkSession 27840000000
      (addHours 27840000000 (defaultConfig.minActivityHours * defaultConfig.timeMultiplier))] = _
    rw [addHours_eval 27840000000 900000000 _ (by norm_num [defaultConfig, usPerHour])]
    rw [mkSession_eval 27840000000 28740000000 27900000000 28800000000 27900000000 28800000000
      (1 / 4) (by decide) (by decide) (by decide) (by norm_num [round2, rhEvenZ, usPerHour])]
  have hmem : (⟨27900000000, 28800000000, 1 / 4⟩ : Session) ∈
      build_day_sessions defaultConfig [27840000000] := by
    rw [heval]
    exact List.mem_singleton.mpr rfl
  exact ⟨hmem, claim_C2_amended_floor defaultConfig [27840000000] _ hmem⟩

/-! ## Daily totals versus the merged sessions (claim C1) -/

/-- One project's local event times, default configuration: 22:00 and 23:45
on day 0, then 00:05 and 01:00 on day 1. -/
def c1Input : List ℕ := [79200000000, 85500000000, 86700000000, 90000000000]

theorem c1_day0_eval : build_day_sessions defaultConfig [79200000000, 85500000000] =
    [⟨79200000000, 86400000000, 2⟩] := by
  rw [show build_day_sessions defaultConfig [79200000000, 85500000000] =
      buildDayLoop defaultConfig 79200000000 79200000000 0 [85500000000] from rfl]
  simp only [buildDayLoop]
  rw [if_pos (show gapHours 79200000000 85500000000 ≤ defaultConfig.maxSessionGapHours from by
    norm_num [gapHours, usPerHour, defaultConfig])]
  rw [addHours_eval 79200000000 7200000000 _ (by norm_num [gapHours, usPerHour, defaultConfig])]
  rw [mkSession_eval 79200000000 86400000000 79200000000 86400000000 79200000000 86400000000
    2 (by decide) (by decide) (by decide) (by norm_num [round2, rhEvenZ, usPerHour])]

theorem c1_day1_eval : build_day_sessions defaultConfig [86700000000, 90000000000] =
    [⟨86400000000, 90900000000, 5 / 4⟩] := by
  rw [show build_day_sessions defaultConfig [86700000000, 90000000000] =
      buildDayLoop defaultConfig 86700000000 86700000000 0 [90000000000] from rfl]
  simp only [buildDayLoop]
  rw [if_pos (show gapHours 86700000000 90000000000 ≤ defaultConfig.maxSessionGapHours from by
    norm_num [gapHours, usPerHour, defaultConfig])]
  rw [addHours_eval 86700000000 4200000000 _ (by norm_num [gapHours, usPerHour, defaultConfig])]
  rw [mkSession_eval 86700000000 90900000000 86400000000 90900000000 86400000000 90900000000
    (5 / 4) (by decide) (by decide) (by decide) (by norm_num [round2, rhEvenZ, usPerHour])]

theorem c1_merge_eval :
    merge_overlapping_sessions
        [⟨79200000000, 86400000000, 2⟩, ⟨86400000000, 90900000000, 5 / 4⟩] =
      [⟨79200000000, 90900000000, 13 / 4⟩] := by
  unfold merge_overlapping_sessions
  rw [show List.insertionSort ivLE
      (([⟨79200000000, 86400000000, 2⟩,
        ⟨86400000000, 90900000000, 5 / 4⟩] : List Session).map toIv) =
      [⟨79200000000, 86400000000⟩, ⟨86400000000, 90900000000⟩] from by decide]
  show List.map finalizeIv
      (mergeLoop ⟨79200000000, 86400000000⟩ [⟨86400000000, 90900000000⟩]) = _
  rw [show mergeLoop ⟨79200000000, 86400000000⟩ [⟨86400000000, 90900000000⟩] =
      [⟨79200000000, 90900000000⟩] from by decide]
  simp only [List.map]
  rw [show finalizeIv ⟨79200000000, 90900000000⟩ = ⟨79200000000, 90900000000, 13 / 4⟩ from by
    unfold finalizeIv
    norm_num [round2, rhEvenZ, usPerHour]]

theorem c1_pipeline_eval : analyze_project_sessions defaultConfig c1Input =
    ([(0, 2), (1, 5 / 4)], [⟨79200000000, 90900000000, 13 / 4⟩]) := by
  unfold analyze_project_sessions
  rw [show List.insertionSort (· ≤ ·) c1Input = c1Input from by decide]
  rw [show groupByDate c1Input =
      [(0, [79200000000, 85500000000]), (1, [86700000000, 90000000000])] from by decide]
  simp only [analyzeDaysGo, List.nil_append]
  rw [c1_day0_eval, c1_day1_eval]
  simp only [List.cons_append, List.nil_append]
  rw [show sumDayHours [⟨79200000000, 86400000000, 2⟩] 0 = 2 from by
    norm_num [sumDayHours, dateOf, usPerDay]]
  rw [show sumDayHours
      [⟨79200000000, 86400000000, 2⟩, ⟨86400000000, 90900000000, 5 / 4⟩] 1 = 5 / 4 from by
    norm_num [sumDayHours, dateOf, usPerDay]]
  rw [c1_merge_eval]

/-- Claim C1 is contradicted by the code: on `c1Input` the recorded daily
totals are day 0 ↦ 2.0 and day 1 ↦ 1.25 (summed over the growing, pre-merge
session list), while the final post-merge session list is the single merged
session 22:00–01:15 whose by-start-date sums are day 0 ↦ 3.25 and
day 1 ↦ 0. -/
theorem claim_C1_daily_totals_diverge :
    (analyze_project_sessions defaultConfig c1Input).1 = [(0, 2), (1, 5 / 4)] ∧
      sumDayHours (analyze_project_sessions defaultConfig c1Input).2 0 = 13 / 4 ∧
      sumDayHours (analyze_project_sessions defaultConfig c1Input).2 1 = 0 ∧
      ((2 : ℚ) ≠ 13 / 4) ∧ ((5 / 4 : ℚ) ≠ 0) := by
  rw [c1_pipeline_eval]
  refine ⟨rfl, ?_, ?_, by norm_num, by norm_num⟩
  · norm_num [sumDayHours, dateOf, usPerDay]
  · norm_num [sumDayHours, dateOf, usPerDay]

/-! ## Merger invariants (claims C4, C5, C9, C10) -/

theorem mergeLoop_head : ∀ (l : List Iv) (c : Iv),
    ∃ e tl, mergeLoop c l = ⟨c.start, e⟩ :: tl ∧ c.stop ≤ e := by
  intro l
  induction l with
  | nil => exact fun c => ⟨c.stop, [], rfl, le_refl _⟩
  | cons n rest ih =>
    intro c
    unfold mergeLoop
    split_ifs with h
    · obtain ⟨e, tl, heq, hle⟩ := ih ⟨c.start, max c.stop n.stop⟩
      exact ⟨e, tl, heq, le_trans (le_max_left _ _) hle⟩
    · exact ⟨c.stop, mergeLoop n rest, rfl, le_refl _⟩

theorem mergeLoop_chain : ∀ (l : List Iv) (c : Iv),
    List.Chain' (fun a b : Iv => a.stop + usPerQuarter < b.start) (mergeLoop c l) := by
  intro l
  induction l with
  | nil => intro c; simp [mergeLoop]
  | cons n rest ih =>
    intro c
    unfold mergeLoop
    split_ifs with h
    · exact ih _
    · obtain ⟨e, tl, heq, _⟩ := mergeLoop_head rest n
      rw [heq]
      refine List.Chain'.cons ?_ ?_
      · show c.stop + usPerQuarter < n.start
        omega
      · rw [← heq]
        exact ih n

theorem mergeLoop_start_mem : ∀ (l : List Iv) (c : Iv) (x : Iv), x ∈ mergeLoop c l →
    x.start = c.start ∨ ∃ y ∈ l, x.start = y.start := by
  intro l
  induction l with
  | nil =>
    intro c x hx
    simp only [mergeLoop, List.mem_singleton] at hx
    exact Or.inl (by rw [hx])
  | cons n rest ih =>
    intro c x hx
    unfold mergeLoop at hx
    split_ifs at hx with h
    · rcases ih ⟨c.start, max c.stop n.stop⟩ x hx with h1 | ⟨y, hy, h2⟩
      · exact Or.inl h1
      · exact Or.inr ⟨y, List.mem_cons_of_mem _ hy, h2⟩
    · rcases List.mem_cons.mp hx with rfl | h1
      · exact Or.inl rfl
      · rcases ih n x h1 with h2 | ⟨y, hy, h3⟩
        · exact Or.inr ⟨n, List.mem_cons_self _ _, h2⟩
        · exact Or.inr ⟨y, List.mem_cons_of_mem _ hy, h3⟩

theorem mergeLoop_sorted : ∀ (l : List Iv) (c : Iv), List.Sorted ivLE (c :: l) →
    List.Pairwise ivLE (mergeLoop c l) := by
  intro l
  induction l with
  | nil => intro c _; simp [mergeLoop]
  | cons n rest ih =>
    intro c hs
    rw [List.sorted_cons] at hs
    obtain ⟨hc, hs2⟩ := hs
    unfold mergeLoop
    split_ifs with h
    · refine ih ⟨c.start, max c.stop n.stop⟩ ?_
      rw [List.sorted_cons]
      refine ⟨?_, hs2.tail⟩
      intro b hb
      exact hc b (List.mem_cons_of_mem _ hb)
    · refine List.Pairwise.cons ?_ (ih n hs2)
      intro x hx
      rcases mergeLoop_start_mem rest n x hx with h1 | ⟨y, hy, h2⟩
      · show c.start ≤ x.start
        rw [h1]
        exact hc n (List.mem_cons_self _ _)
      · show c.start ≤ x.start
        rw [h2]
        exact hc y (List.mem_cons_of_mem _ hy)

theorem pairwise_gap_of_chain : ∀ l : List Iv,
    List.Chain' (fun a b : Iv => a.stop + usPerQuarter < b.start) l →
    List.Pairwise ivLE l →
    List.Pairwise (fun a b : Iv => a.stop + usPerQuarter < b.start) l := by
  intro l
  induction l with
  | nil => intro _ _; exact List.Pairwise.nil
  | cons a l ih =>
    intro hc hp
    refine List.Pairwise.cons ?_ (ih hc.tail hp.tail)
    intro x hx
    match l, hx with
    | b :: l', hx =>
      rcases List.mem_cons.mp hx with rfl | hx'
      · exact (List.chain'_cons.mp hc).1
      · have hab : a.stop + usPerQuarter < b.start := (List.chain'_cons.mp hc).1
        have hbx : ivLE b x := List.rel_of_pairwise_cons hp.tail hx'
        have : b.start ≤ x.start := hbx
        omega

/-- Claim C4: on any nonempty input, the merger's output is sorted by start,
pairwise separated by strictly more than 15 minutes past the earlier end
(hence pairwise non-overlapping), and every output's `hours` is recomputed
from its endpoints with `round(·, 2)`. -/
theorem claim_C4_merge_postconditions (sessions : List Session) (h : sessions ≠ []) :
    ((merge_overlapping_sessions sessions).Pairwise fun a b => a.start ≤ b.start) ∧
      ((merge_overlapping_sessions sessions).Pairwise fun a b =>
        a.stop + usPerQuarter < b.start) ∧
      ∀ s ∈ merge_overlapping_sessions sessions,
        s.hours = round2 ((((s.stop : ℕ) : ℚ) - ((s.start : ℕ) : ℚ)) / ((usPerHour : ℕ) : ℚ)) := by
  rcases hsort : List.insertionSort ivLE (sessions.map toIv) with _ | ⟨c, rest⟩
  · exfalso
    have hl := congrArg List.length hsort
    simp at hl
    exact h hl
  · have hsorted : List.Sorted ivLE (c :: rest) := by
      rw [← hsort]
      exact List.sorted_insertionSort ivLE _
    have hout : merge_overlapping_sessions sessions = (mergeLoop c rest).map finalizeIv := by
      unfold merge_overlapping_sessions
      rw [hsort]
    have hpair := mergeLoop_sorted rest c hsorted
    have hgap := pairwise_gap_of_chain _ (mergeLoop_chain rest c) hpair
    rw [hout]
    refine ⟨?_, ?_, ?_⟩
    · rw [List.pairwise_map]
      exact hpair
    · rw [List.pairwise_map]
      exact hgap
    · intro s hs
      obtain ⟨iv, _, rfl⟩ := List.mem_map.mp hs
      rfl

theorem claim_C4_merge_postconditions_witness :
    (([⟨0, 900000000, 1 / 4⟩] : List Session) ≠ []) ∧
      ((merge_overlapping_sessions [⟨0, 900000000, 1 / 4⟩]).Pairwise fun a b =>
        a.start ≤ b.start) ∧
      ((merge_overlapping_sessions [⟨0, 900000000, 1 / 4⟩]).Pairwise fun a b =>
        a.stop + usPerQuarter < b.start) ∧
      ∀ s ∈ merge_overlapping_sessions [⟨0, 900000000, 1 / 4⟩],
        s.hours = round2 ((((s.stop : ℕ) : ℚ) - ((s.start : ℕ) : ℚ)) / ((usPerHour : ℕ) : ℚ)) :=
  ⟨List.cons_ne_nil _ _,
    claim_C4_merge_postconditions [⟨0, 900000000, 1 / 4⟩] (List.cons_ne_nil _ _)⟩

theorem mergeLoop_of_chain : ∀ (l : List Iv) (c : Iv),
    List.Chain' (fun a b : Iv => a.stop + usPerQuarter < b.start) (c :: l) →
    mergeLoop c l = c :: l := by
  intro l
  induction l with
  | nil => intro c _; rfl
  | cons n rest ih =>
    intro c hc
    have h1 : c.stop + usPerQuarter < n.start := (List.chain'_cons.mp hc).1
    unfold mergeLoop
    rw [if_neg (by omega)]
    rw [ih n (List.chain'_cons.mp hc).2]

/-- Claim C5: the merger is idempotent — applied to its own output it returns
that output unchanged. -/
theorem claim_C5_merge_idempotent (sessions : List Session) :
    merge_overlapping_sessions (merge_overlapping_sessions sessions) =
      merge_overlapping_sessions sessions := by
  rcases hsort : List.insertionSort ivLE (sessions.map toIv) with _ | ⟨c, rest⟩
  · have hempty : merge_overlapping_sessions sessions = [] := by
      unfold merge_overlapping_sessions
      rw [hsort]
    rw [hempty]
    rfl
  · have hsorted : List.Sorted ivLE (c :: rest) := by
      rw [← hsort]
      exact List.sorted_insertionSort ivLE _
    have hout : merge_overlapping_sessions sessions = (mergeLoop c rest).map finalizeIv := by
      unfold merge_overlapping_sessions
      rw [hsort]
    have hmapIv : ((mergeLoop c rest).map finalizeIv).map toIv = mergeLoop c rest := by
      rw [List.map_map]
      have hid : toIv ∘ finalizeIv = id := rfl
      rw [hid, List.map_id]
    have hpair := mergeLoop_sorted rest c hsorted
    have hchain := mergeLoop_chain rest c
    obtain ⟨e, tl, heq, _⟩ := mergeLoop_head rest c
    conv_lhs => rw [hout]
    unfold merge_overlapping_sessions
    rw [hmapIv, List.Sorted.insertionSort_eq hpair, heq]
    show (mergeLoop ⟨c.start, e⟩ tl).map finalizeIv = _
    rw [mergeLoop_of_chain tl ⟨c.start, e⟩ (heq ▸ hchain), ← heq, hsort]

/-- Claim C9: the merger maps the empty session list to the empty list. -/
theorem claim_C9_merge_empty : merge_overlapping_sessions [] = [] := rfl

theorem mergeLoop_covers_first : ∀ (l : List Iv) (c : Iv),
    ∃ m ∈ mergeLoop c l, m.start ≤ c.start ∧ c.stop ≤ m.stop := by
  intro l
  induction l with
  | nil => exact fun c => ⟨c, List.mem_singleton.mpr rfl, le_refl _, le_refl _⟩
  | cons n rest ih =>
    intro c
    unfold mergeLoop
    split_ifs with h
    · obtain ⟨m, hm, h1, h2⟩ := ih ⟨c.start, max c.stop n.stop⟩
      exact ⟨m, hm, h1, le_trans (le_max_left _ _) h2⟩
    · exact ⟨c, List.mem_cons_self _ _, le_refl _, le_refl _⟩

theorem mergeLoop_covers : ∀ (l : List Iv) (c : Iv), List.Sorted ivLE (c :: l) →
    ∀ x ∈ l, ∃ m ∈ mergeLoop c l, m.start ≤ x.start ∧ x.stop ≤ m.stop := by
  intro l
  induction l with
  | nil => intro c _ x hx; simp at hx
  | cons n rest ih =>
    intro c hs x hx
    rw [List.sorted_cons] at hs
    obtain ⟨hc, hs2⟩ := hs
    unfold mergeLoop
    split_ifs with h
    · rcases List.mem_cons.mp hx with rfl | hx'
      · obtain ⟨m, hm, h1, h2⟩ := mergeLoop_covers_first rest ⟨c.start, max c.stop x.stop⟩
        exact ⟨m, hm, le_trans h1 (hc x (List.mem_cons_self _ _)), le_trans (le_max_right _ _) h2⟩
      · refine ih ⟨c.start, max c.stop n.stop⟩ ?_ x hx'
        rw [List.sorted_cons]
        exact ⟨fun b hb => hc b (List.mem_cons_of_mem _ hb), hs2.tail⟩
    · rcases List.mem_cons.mp hx with rfl | hx'
      · obtain ⟨m, hm, h1, h2⟩ := mergeLoop_covers_first rest x
        exact ⟨m, List.mem_cons_of_mem _ hm, h1, h2⟩
      · obtain ⟨m, hm, h1, h2⟩ := ih n hs2 x hx'
        exact ⟨m, List.mem_cons_of_mem _ hm, h1, h2⟩

/-- Claim C10: the merger loses no covered time — every input session is
contained in some output session. -/
theorem claim_C10_merge_covers (sessions : List Session) (s : Session) (hs : s ∈ sessions) :
    ∃ m ∈ merge_overlapping_sessions sessions, m.start ≤ s.start ∧ s.stop ≤ m.stop := by
  have hmem : toIv s ∈ List.insertionSort ivLE (sessions.map toIv) := by
    rw [List.mem_insertionSort]
    exact List.mem_map_of_mem _ hs
  rcases hsort : List.insertionSort ivLE (sessions.map toIv) with _ | ⟨c, rest⟩
  · rw [hsort] at hmem
    simp at hmem
  · rw [hsort] at hmem
    have hsorted : List.Sorted ivLE (c :: rest) := by
      rw [← hsort]
      exact List.sorted_insertionSort ivLE _
    have hout : merge_overlapping_sessions sessions = (mergeLoop c rest).map finalizeIv := by
      unfold merge_overlapping_sessions
      rw [hsort]
    have hcov : ∃ m ∈ mergeLoop c rest, m.start ≤ (toIv s).start ∧ (toIv s).stop ≤ m.stop := by
      rcases List.mem_cons.mp hmem with heq | hx
      · rw [← heq]
        exact mergeLoop_covers_first rest (toIv s)
      · exact mergeLoop_covers rest c hsorted _ hx
    obtain ⟨m, hm, h1, h2⟩ := hcov
    refine ⟨finalizeIv m, ?_, h1, h2⟩
    rw [hout]
    exact List.mem_map_of_mem _ hm

theorem claim_C10_merge_covers_witness :
    ((⟨0, 900000000, 1 / 4⟩ : Session) ∈ ([⟨0, 900000000, 1 / 4⟩] : List Session)) ∧
      ∃ m ∈ merge_overlapping_sessions [⟨0, 900000000, 1 / 4⟩],
        m.start ≤ (0 : ℕ) ∧ (900000000 : ℕ) ≤ m.stop :=
  ⟨List.mem_singleton.mpr rfl,
    claim_C10_merge_covers [⟨0, 900000000, 1 / 4⟩] ⟨0, 900000000, 1 / 4⟩
      (List.mem_singleton.mpr rfl)⟩

/-! ## Classifier equivalences (claim C6) -/

theorem findSplit_isSome (sep : Str) : ∀ s : Str, (findSplit sep s).isSome = containsSeq sep s := by
  intro s
  induction s with
  | nil => cases h : List.isPrefixOf sep ([] : Str) <;> simp [findSplit, containsSeq, h]
  | cons c rest ih =>
    cases h : List.isPrefixOf sep (c :: rest) <;>
      simp [findSplit, containsSeq, h, ih]

theorem containsSeq_singleton (c : Char) : ∀ s : Str, containsSeq [c] s = true ↔ c ∈ s := by
  intro s
  induction s with
  | nil => simp [containsSeq, List.isPrefixOf]
  | cons a rest ih =>
    simp [containsSeq, List.isPrefixOf, ih, Bool.or_eq_true, beq_iff_eq]

/-- Claim C6's text-fallback rule is false on the code: for an event with no
URL and text "In abc[x]" there is no " [" anywhere (in particular none after
the "In "), so the claim's rule produces the sentinel, but the code — which
only tests for "In " and a bare "[" — accepts the project name "abc[x]". -/
theorem claim_C6_counterexample :
    extract_project_name [] "In abc[x]".toList = "abc[x]".toList ∧
      extract_project_name_claim [] "In abc[x]".toList = unknownProject ∧
      "abc[x]".toList ≠ unknownProject := by
  refine ⟨by decide, by decide, by decide⟩

/-- Claim C6 (amended): classification is first-applicable-rule as claimed
for the URL branch (at least 4 non-empty path segments → the 4th, exactly 3 →
the 3rd, fewer → sentinel; an unparseable URL falls back to a raw split on
`/`), but the text branch only requires "In " and a bare "[" to occur
anywhere in the text; the candidate is the text after the first "In ", cut at
the next "In " if any and at the first " [" within it, trimmed, and accepted
only if nonempty, shorter than 100 characters and newline-free. -/
theorem claim_C6_classifier_amended (dataLink blurb : Str) :
    extract_project_name dataLink blurb = extract_project_name_amended dataLink blurb := by
  unfold extract_project_name extract_project_name_amended
  by_cases hd : dataLink ≠ [] ∧ dataLink ≠ "nan".toList
  · rw [if_pos hd, if_pos hd]
    cases hu : urlparsePath dataLink with
    | none => rfl
    | some path =>
      dsimp only
      by_cases h4 : 4 ≤ ((splitChar '/' path).filter fun seg => !seg.isEmpty).length
      · rw [if_pos h4, if_pos h4]
      · rw [if_neg h4, if_neg h4]
        by_cases h3 : 3 ≤ ((splitChar '/' path).filter fun seg => !seg.isEmpty).length
        · rw [if_pos h3, if_pos (by omega)]
        · rw [if_neg h3, if_neg (by omega)]
  · rw [if_neg hd, if_neg hd]
    have hiff : ((findSplit "In ".toList blurb).isSome ∧ '[' ∈ blurb) ↔
        (containsSeq "In ".toList blurb && containsSeq ['['] blurb) = true := by
      rw [Bool.and_eq_true, ← findSplit_isSome, containsSeq_singleton]
    by_cases hc : (findSplit "In ".toList blurb).isSome ∧ '[' ∈ blurb
    · rw [if_pos hc, if_pos (hiff.mp hc)]
      rfl
    · rw [if_neg hc, if_neg (fun hcon => hc (hiff.mpr hcon))]

/-! ## Significant projects (claim C7) -/

theorem pyDedup_mem_aux {α : Type} [DecidableEq α] : ∀ (n : ℕ) (l : List α), l.length = n →
    ∀ x : α, x ∈ pyDedup l ↔ x ∈ l := by
  intro n
  induction n using Nat.strong_induction_on with
  | _ n ih =>
    intro l hn
    match l with
    | [] => simp [pyDedup]
    | a :: rest =>
      intro x
      have hlen : (rest.filter fun b => b ≠ a).length < n := by
        have := List.length_filter_le (fun b => decide (b ≠ a)) rest
        simp only [List.length_cons] at hn
        omega
      rw [pyDedup]
      constructor
      · intro hx
        rcases List.mem_cons.mp hx with rfl | hx'
        · exact List.mem_cons_self _ _
        · have := (ih _ hlen _ rfl x).mp hx'
          exact List.mem_cons_of_mem _ (List.mem_of_mem_filter this)
      · intro hx
        rcases List.mem_cons.mp hx with rfl | hx'
        · exact List.mem_cons_self _ _
        · by_cases hxa : x = a
          · rw [hxa]
            exact List.mem_cons_self _ _
          · refine List.mem_cons_of_mem _ ((ih _ hlen _ rfl x).mpr ?_)
            exact List.mem_filter.mpr ⟨hx', by simp [hxa]⟩

theorem pyDedup_mem {α : Type} [DecidableEq α] (l : List α) (x : α) :
    x ∈ pyDedup l ↔ x ∈ l :=
  pyDedup_mem_aux l.length l rfl x

/-- Claim C7: a project appears in the significant set exactly when it occurs
in the classified data, its event count is at least `min_activities`, and it
is not the sentinel; its computed hours play no role. -/
theorem claim_C7_significant (projects : List Str) (m : ℕ) (p : Str) :
    p ∈ significant_projects projects m ↔
      p ∈ projects ∧ m ≤ projects.count p ∧ p ≠ unknownProject := by
  unfold significant_projects
  rw [List.mem_filter, pyDedup_mem]
  simp only [Bool.and_eq_true, decide_eq_true_eq, bne_iff_ne, ne_eq]

/-! ## Timestamp error handling (claim C8) -/

/-- Claim C8 (amended): a row with a non-numeric timestamp is dropped and the
rest are processed — removing such rows does not change the result at all —
and when every timestamp is non-numeric the run does not fail: it completes
normally with empty daily-hours, session and count dictionaries and
`failed = false` (no conversion diagnostic). -/
theorem claim_C8_timestamp_errors (cfg : Config) (m : ℕ) (tz : ℤ → ℕ) (rows : List RawRow) :
    analyze_all_projects cfg m tz rows =
        analyze_all_projects cfg m tz (rows.filter fun r => r.timestamp.isSome) ∧
      ((∀ r ∈ rows, r.timestamp = none) →
        analyze_all_projects cfg m tz rows =
          { failed := false, projectHours := [], projectSessions := [], projectCounts := [] }) := by
  constructor
  · unfold analyze_all_projects
    rw [List.filter_filter]
    simp only [Bool.and_self]
  · intro hall
    have hfilter : rows.filter (fun r => r.timestamp.isSome) = [] := by
      rw [List.filter_eq_nil_iff]
      intro r hr
      rw [hall r hr]
      simp
    unfold analyze_all_projects
    rw [hfilter]
    simp [unitIsMs, toDatetimeRaises, significant_projects, pyDedup]

theorem claim_C8_timestamp_errors_witness :
    analyze_all_projects defaultConfig 3 Int.toNat
        [{ timestamp := none, dataLink := [], blurb := [] }] =
      { failed := false, projectHours := [], projectSessions := [], projectCounts := [] } :=
  (claim_C8_timestamp_errors defaultConfig 3 Int.toNat
    [{ timestamp := none, dataLink := [], blurb := [] }]).2 (by simp)

/-- Claim C8's fatal branch is false on the code: a file whose only timestamp
is non-numeric leaves an empty frame after `dropna`; `max()` of the empty
column is `NaN`, the unit test `NaN > 1e12` is false, `to_datetime` on the
empty column raises nothing, so the `except` branch (the run "failing" with a
diagnostic) is never reached — the run completes with `failed = false`. -/
theorem claim_C8_counterexample :
    (analyze_all_projects defaultConfig 3 Int.toNat
        [{ timestamp := none, dataLink := "x".toList, blurb := "y".toList }]).failed = false ∧
      analyze_all_projects defaultConfig 3 Int.toNat
          [{ timestamp := none, dataLink := "x".toList, blurb := "y".toList }] =
        { failed := false, projectHours := [], projectSessions := [], projectCounts := [] } := by
  have hfilter : ([{ timestamp := none, dataLink := "x".toList, blurb := "y".toList }] :
      List RawRow).filter (fun r => r.timestamp.isSome) = [] := rfl
  constructor
  · unfold analyze_all_projects
    rw [hfilter]
    simp [unitIsMs, toDatetimeRaises]
  · unfold analyze_all_projects
    rw [hfilter]
    simp [unitIsMs, toDatetimeRaises, significant_projects, pyDedup]
